import Mathlib

/-!
Verification development for the alignment-and-aggregation engine of two
SUMO post-processing scripts:

* `export_pt_delay_excel.py` (stop-delay mode): parses `stopinfo` records,
  aligns baseline and perturbed stop delays by stop id and occurrence rank,
  and emits one sheet per perturbation value plus a summary sheet.
* `get_table_of_old_methode.py` (vehicle-duration mode): parses `tripinfo`
  records, averages per-vehicle durations across replicates, differences
  against a single baseline, and emits analogous sheets.

Measurements are modelled as rationals (`ℚ`); attribute strings that parse
as floats are represented by their parsed value.  An attribute that may be
absent is an `Option`; an attribute that may be absent, or present but not
parseable as a float, is an `Option (Option ℚ)` (`none` = absent,
`some none` = present but unparseable, `some (some v)` = parses to `v`).
Python float special values (NaN from a literal "nan", infinities) are not
representable in `ℚ`; no claim below depends on them.
-/

namespace Sumo

/-- One `<stopinfo .../>` element of a stop-events file, restricted to the
attributes read by `parse_stop_delays` (export_pt_delay_excel.py, lines 42-60). -/
structure StopInfo where
  busStop : Option String
  stop : Option String
  delay : Option (Option ℚ)
  deriving DecidableEq

/-- Identity selection of `parse_stop_delays`:
`stop_id = el.attrib.get("busStop") or el.attrib.get("stop")` followed by
`if not stop_id: continue`.  Python `or` treats the empty string as falsy,
so an empty `busStop` falls through to `stop`, and an empty final candidate
is skipped (`none`). -/
def stopIdOf (e : StopInfo) : Option String :=
  let cand : Option String :=
    match e.busStop with
    | some s => if s = "" then e.stop else some s
    | none => e.stop
  match cand with
  | some t => if t = "" then none else some t
  | none => none

/-- The identity selection as the claim words it: the value of `busStop`
when the attribute is present, otherwise the value of `stop`.  Kept for
comparison with the source-derived `stopIdOf`; the two differ when
`busStop` is present but empty. -/
def stopIdClaimed (e : StopInfo) : Option String :=
  match e.busStop with
  | some s => some s
  | none => e.stop

/-- Delay extraction of `parse_stop_delays`:
`delay = float(el.attrib.get("delay", "0"))` with `except ValueError: continue`.
A missing attribute defaults to the string `"0"`, i.e. the value `0`;
a present-but-unparseable attribute skips the record (`none`). -/
def delayValOf (e : StopInfo) : Option ℚ :=
  match e.delay with
  | none => some 0
  | some none => none
  | some (some v) => some v

/-- `delays[stop_id].append(delay)` on a `defaultdict(list)`: append to the
entry of `k` if present (Python dicts keep insertion order), else add a new
entry `(k, [v])` at the end. -/
def addDelay (m : List (String × List ℚ)) (k : String) (v : ℚ) :
    List (String × List ℚ) :=
  match m with
  | [] => [(k, [v])]
  | (k', vs) :: rest =>
    if k' = k then (k', vs ++ [v]) :: rest else (k', vs) :: addDelay rest k v

/-- The body of the `for el in root.findall(".//stopinfo")` loop of
`parse_stop_delays`. -/
def stepStop (m : List (String × List ℚ)) (e : StopInfo) :
    List (String × List ℚ) :=
  match stopIdOf e with
  | none => m
  | some k =>
    match delayValOf e with
    | none => m
    | some v => addDelay m k v

/-- Ascending sort used for `delays[k].sort()` and for percentile
computation.  Python sorts are comparison sorts on the values; on `ℚ` the
sorted output is determined by the multiset, so `insertionSort` is an
adequate model. -/
def sortAsc (l : List ℚ) : List ℚ :=
  l.insertionSort (· ≤ ·)

/-- `parse_stop_delays` (export_pt_delay_excel.py, lines 42-60) on the list
of `stopinfo` elements of a well-formed file: accumulate delays per stop id
in file order, then sort each list ascending (`for k in delays: delays[k].sort()`). -/
def parse_stop_delays (els : List StopInfo) : List (String × List ℚ) :=
  (els.foldl stepStop []).map (fun p => (p.1, sortAsc p.2))

/-- `parse_stop_delays` at the file level: a missing or malformed file
(`_parse_root` raising, caught at lines 44-48) yields the empty mapping
after a printed warning. -/
def parseStopDelaysFile : Option (List StopInfo) → List (String × List ℚ)
  | none => []
  | some els => parse_stop_delays els

/-- One output row of the per-value sheet of export_pt_delay_excel.py
(lines 135-143), without the `value` and `sim` columns, which are constant
within the loop and tracked separately. -/
structure AlignedRecord where
  stop : String
  occurrence : ℕ
  delay_baseline_s : ℚ
  delay_mixed_s : ℚ
  delay_delta_s : ℚ
  deriving DecidableEq

/-- The inner `for idx in range(n)` loop of export_pt_delay_excel.py
(lines 133-143): pair the two lists positionally, emitting occurrence
ranks `occ, occ+1, ...` and delta `mixed - baseline`.  Recursion on the two
lists stops at the shorter one, i.e. after `min` of the lengths steps. -/
def alignStopAux (k : String) (occ : ℕ) : List ℚ → List ℚ → List AlignedRecord
  | b :: bs, m :: ms =>
    ⟨k, occ, b, m, m - b⟩ :: alignStopAux k (occ + 1) bs ms
  | _, _ => []

/-- Records for one common stop id, occurrence ranks starting at 1. -/
def alignStop (k : String) (bl ml : List ℚ) : List AlignedRecord :=
  alignStopAux k 1 bl ml

/-- Records contributed by one entry of the baseline set: look up the
perturbed list (`mixed.get(stop_id)`); `if not mix_list: continue` skips
identities absent from the perturbed set (and empty lists). -/
def alignEntry (mixed : List (String × List ℚ)) (e : String × List ℚ) :
    List AlignedRecord :=
  match mixed.lookup e.1 with
  | none => []
  | some ml => if ml.isEmpty then [] else alignStop e.1 e.2 ml

/-- The `for stop_id, base_list in base.items()` loop of
export_pt_delay_excel.py (lines 129-143). -/
def alignPair (base mixed : List (String × List ℚ)) : List AlignedRecord :=
  base.foldr (fun e acc => alignEntry mixed e ++ acc) []

end Sumo

namespace Sumo

/-! Basic lemmas about the stop-delay extractor. -/

theorem stepStop_skip (m : List (String × List ℚ)) (e : StopInfo)
    (h : delayValOf e = none) : stepStop m e = m := by
  unfold stepStop
  cases hid : stopIdOf e with
  | none => rfl
  | some k => rw [h]

theorem mem_addDelay (m : List (String × List ℚ)) (k : String) (v : ℚ)
    (hm : ∀ p ∈ m, p.2 ≠ []) : ∀ p ∈ addDelay m k v, p.2 ≠ [] := by
  induction m with
  | nil =>
    intro p hp
    simp only [addDelay, List.mem_singleton] at hp
    subst hp; simp
  | cons hd tl ih =>
    intro p hp
    obtain ⟨k', vs⟩ := hd
    simp only [addDelay] at hp
    by_cases hk : k' = k
    · rw [if_pos hk] at hp
      rcases List.mem_cons.mp hp with h | h
      · subst h; simp
      · exact hm p (List.mem_cons_of_mem _ h)
    · rw [if_neg hk] at hp
      rcases List.mem_cons.mp hp with h | h
      · subst h; exact hm _ (List.mem_cons_self _ _)
      · exact ih (fun q hq => hm q (List.mem_cons_of_mem _ hq)) p h

theorem mem_foldl_stepStop (els : List StopInfo) :
    ∀ (acc : List (String × List ℚ)), (∀ p ∈ acc, p.2 ≠ []) →
      ∀ p ∈ els.foldl stepStop acc, p.2 ≠ [] := by
  induction els with
  | nil => intro acc hacc p hp; exact hacc p hp
  | cons e rest ih =>
    intro acc hacc p hp
    refine ih (stepStop acc e) ?_ p hp
    unfold stepStop
    cases stopIdOf e with
    | none => exact hacc
    | some k =>
      cases delayValOf e with
      | none => exact hacc
      | some v => exact mem_addDelay acc k v hacc

theorem sortAsc_sorted (l : List ℚ) : (sortAsc l).Sorted (· ≤ ·) :=
  List.sorted_insertionSort _ l

theorem sortAsc_perm (l : List ℚ) : (sortAsc l).Perm l :=
  List.perm_insertionSort _ l

theorem sortAsc_ne_nil (l : List ℚ) (h : l ≠ []) : sortAsc l ≠ [] := by
  intro hc
  exact h (List.Perm.eq_nil ((sortAsc_perm l).symm.trans (hc ▸ List.Perm.refl _)))

/-- C10 core: every entry of the extractor output has a non-empty, ascending
value list. -/
theorem parse_stop_delays_entry (els : List StopInfo) :
    ∀ p ∈ parse_stop_delays els, p.2 ≠ [] ∧ p.2.Sorted (· ≤ ·) := by
  intro p hp
  unfold parse_stop_delays at hp
  rcases List.mem_map.mp hp with ⟨q, hq, hpq⟩
  have hq2 : q.2 ≠ [] := mem_foldl_stepStop els [] (by simp) q hq
  constructor
  · rw [← hpq]; exact sortAsc_ne_nil q.2 hq2
  · rw [← hpq]; exact sortAsc_sorted q.2

/-! Lemmas about the stop-occurrence aligner. -/

theorem mem_alignStopAux (k : String) :
    ∀ (occ : ℕ) (bl ml : List ℚ), ∀ r ∈ alignStopAux k occ bl ml,
      r.stop = k ∧ r.delay_delta_s = r.delay_mixed_s - r.delay_baseline_s := by
  intro occ bl
  induction bl generalizing occ with
  | nil => intro ml r hr; simp [alignStopAux] at hr
  | cons b bs ih =>
    intro ml r hr
    cases ml with
    | nil => simp [alignStopAux] at hr
    | cons m ms =>
      simp only [alignStopAux, List.mem_cons] at hr
      rcases hr with h | h
      · subst h; exact ⟨rfl, rfl⟩
      · exact ih (occ + 1) ms r h

theorem alignStopAux_length (k : String) :
    ∀ (occ : ℕ) (bl ml : List ℚ),
      (alignStopAux k occ bl ml).length = min bl.length ml.length := by
  intro occ bl
  induction bl generalizing occ with
  | nil => intro ml; cases ml <;> simp [alignStopAux]
  | cons b bs ih =>
    intro ml
    cases ml with
    | nil => simp [alignStopAux]
    | cons m ms =>
      simp only [alignStopAux, List.length_cons, ih (occ + 1) ms]
      omega

theorem alignStopAux_getD (k : String) :
    ∀ (bl ml : List ℚ) (occ i : ℕ), i < min bl.length ml.length →
      (alignStopAux k occ bl ml).getD i ⟨"", 0, 0, 0, 0⟩
        = ⟨k, occ + i, bl.getD i 0, ml.getD i 0, ml.getD i 0 - bl.getD i 0⟩ := by
  intro bl
  induction bl with
  | nil => intro ml occ i hi; simp at hi
  | cons b bs ih =>
    intro ml occ i hi
    cases ml with
    | nil => simp at hi
    | cons m ms =>
      cases i with
      | zero => simp [alignStopAux]
      | succ j =>
        have hj : j < min bs.length ms.length := by
          simp only [List.length_cons] at hi; omega
        simp only [alignStopAux, List.getD_cons_succ, List.getD_cons_succ,
          ih ms (occ + 1) j hj]
        congr 1
        omega

theorem alignStop_nil_right (k : String) (bl : List ℚ) :
    alignStop k bl [] = [] := by
  cases bl <;> rfl

theorem alignPair_cons (e : String × List ℚ) (base mixed : List (String × List ℚ)) :
    alignPair (e :: base) mixed = alignEntry mixed e ++ alignPair base mixed := rfl

theorem mem_alignEntry (mixed : List (String × List ℚ)) (e : String × List ℚ) :
    ∀ r ∈ alignEntry mixed e,
      r.stop = e.1 ∧ r.delay_delta_s = r.delay_mixed_s - r.delay_baseline_s := by
  intro r hr
  unfold alignEntry at hr
  split at hr
  · simp at hr
  · split at hr
    · simp at hr
    · exact mem_alignStopAux e.1 1 e.2 _ r hr

theorem filter_alignPair_not_mem (base mixed : List (String × List ℚ))
    (k : String) (h : k ∉ base.map Prod.fst) :
    (alignPair base mixed).filter (fun r => r.stop == k) = [] := by
  induction base with
  | nil => rfl
  | cons e rest ih =>
    have hk : e.1 ≠ k := by
      intro hc; exact h (by simp [hc])
    have hrest : k ∉ rest.map Prod.fst := by
      intro hc; exact h (by simp [hc])
    rw [alignPair_cons, List.filter_append, ih hrest, List.append_nil]
    apply List.filter_eq_nil_iff.mpr
    intro r hr
    have := (mem_alignEntry mixed e r hr).1
    simp [this, hk]

theorem filter_alignPair (base mixed : List (String × List ℚ))
    (hnd : (base.map Prod.fst).Nodup) (k : String) (bl ml : List ℚ)
    (hb : base.lookup k = some bl) (hm : mixed.lookup k = some ml) :
    (alignPair base mixed).filter (fun r => r.stop == k) = alignStop k bl ml := by
  induction base with
  | nil => simp [List.lookup] at hb
  | cons e rest ih =>
    obtain ⟨k', bl'⟩ := e
    rw [alignPair_cons, List.filter_append]
    by_cases hk : k' = k
    · subst hk
      have hbl : bl' = bl := by
        simpa [List.lookup_cons] using hb
      rw [← hbl]
      have hrest : k' ∉ rest.map Prod.fst := by
        have := hnd
        simp only [List.map_cons, List.nodup_cons] at this
        exact this.1
      have hent : alignEntry mixed (k', bl') =
          if ml.isEmpty then [] else alignStop k' bl' ml := by
        simp [alignEntry, hm]
      rw [filter_alignPair_not_mem rest mixed k' hrest, List.append_nil, hent]
      by_cases hemp : ml.isEmpty
      · rw [if_pos hemp]
        rw [List.isEmpty_iff.mp hemp, alignStop_nil_right]
        rfl
      · rw [if_neg hemp]
        apply List.filter_eq_self.mpr
        intro r hr
        have := (mem_alignStopAux k' 1 bl' ml r hr).1
        simp [this]
    · have hb' : rest.lookup k = some bl := by
        simpa [List.lookup_cons, beq_false_of_ne (Ne.symm hk)] using hb
      have hnd' : (rest.map Prod.fst).Nodup := by
        simp only [List.map_cons, List.nodup_cons] at hnd
        exact hnd.2
      rw [ih hnd' hb', List.append_left_eq_self]
      apply List.filter_eq_nil_iff.mpr
      intro r hr
      have := (mem_alignEntry mixed (k', bl') r hr).1
      simp at this
      simp [this, hk]

theorem lookup_eq_none_not_mem {β : Type} (l : List (String × β)) (k : String)
    (h : l.lookup k = none) : k ∉ l.map Prod.fst := by
  induction l with
  | nil => simp
  | cons e rest ih =>
    obtain ⟨a, b⟩ := e
    by_cases hak : k = a
    · subst hak
      simp [List.lookup_cons] at h
    · have h' : rest.lookup k = none := by
        simpa [List.lookup_cons, beq_false_of_ne hak] using h
      intro hc
      simp only [List.map_cons, List.mem_cons] at hc
      rcases hc with h1 | h1
      · exact hak h1
      · exact ih h' (List.mem_map.mpr (List.mem_map.mp h1))

theorem filter_alignPair_one_sided (base mixed : List (String × List ℚ))
    (k : String) (h : base.lookup k = none ∨ mixed.lookup k = none) :
    (alignPair base mixed).filter (fun r => r.stop == k) = [] := by
  rcases h with h | h
  · exact filter_alignPair_not_mem base mixed k (lookup_eq_none_not_mem base k h)
  · induction base with
    | nil => rfl
    | cons e rest ih =>
      rw [alignPair_cons, List.filter_append, ih, List.append_nil]
      apply List.filter_eq_nil_iff.mpr
      intro r hr
      by_cases hk : e.1 = k
      · have : alignEntry mixed e = [] := by
          simp [alignEntry, hk, h]
        rw [this] at hr; simp at hr
      · have := (mem_alignEntry mixed e r hr).1
        simp [this, hk]

theorem mem_alignPair (base mixed : List (String × List ℚ)) :
    ∀ r ∈ alignPair base mixed,
      r.delay_delta_s = r.delay_mixed_s - r.delay_baseline_s := by
  induction base with
  | nil => intro r hr; simp [alignPair] at hr
  | cons e rest ih =>
    intro r hr
    rw [alignPair_cons] at hr
    rcases List.mem_append.mp hr with h | h
    · exact (mem_alignEntry mixed e r h).2
    · exact ih r h

end Sumo

namespace Sumo

/-! The vehicle-duration extractor of get_table_of_old_methode.py. -/

/-- One `<tripinfo .../>` element, restricted to the attributes read by
`extract_pt_durations` (get_table_of_old_methode.py, lines 28-66).
Attribute encoding as for `StopInfo`.  A `duration` that is absent with
`arrival` or `depart` also absent yields `float("nan")` arithmetic in
Python, which is then stored; NaN is not representable in `ℚ` and no claim
depends on NaN-valued durations, so that corner is modelled as a skip. -/
structure TripInfo where
  id : Option String
  tripid : Option String
  vType : Option String
  vtype : Option String
  duration : Option (Option ℚ)
  arrival : Option (Option ℚ)
  depart : Option (Option ℚ)
  deriving DecidableEq

/-- `vid = el.attrib.get("id") or el.attrib.get("tripid") or ""` followed by
`if not vid: continue` (empty strings are falsy). -/
def vidOf (e : TripInfo) : Option String :=
  let cand : Option String :=
    match e.id with
    | some s => if s = "" then e.tripid else some s
    | none => e.tripid
  match cand with
  | some t => if t = "" then none else some t
  | none => none

/-- `vtype = el.attrib.get("vType") or el.attrib.get("vtype")`. -/
def vtypeOf (e : TripInfo) : Option String :=
  match e.vType with
  | some s => if s = "" then e.vtype else some s
  | none => e.vtype

/-- Case-insensitive substring test `"bus" in s.lower()`. -/
def containsBus (s : String) : Bool :=
  decide (2 ≤ (s.toLower.splitOn "bus").length)

/-- Python `str.isdigit` restricted to ASCII digits: non-empty and all
characters are digits. -/
def isDigits (s : String) : Bool :=
  !s.isEmpty && s.toList.all Char.isDigit

/-- `is_bus = (vtype is not None and "bus" in vtype.lower()) or
(vtype is None and not vid.isdigit())`. -/
def isBus (vt : Option String) (vid : String) : Bool :=
  match vt with
  | some t => containsBus t
  | none => !isDigits vid

/-- Duration extraction: use the `duration` attribute when present,
otherwise `arrival - depart`; any parse failure skips the record. -/
def durOf (e : TripInfo) : Option ℚ :=
  match e.duration with
  | some (some d) => some d
  | some none => none
  | none =>
    match e.arrival, e.depart with
    | some (some a), some (some d) => some (a - d)
    | _, _ => none

/-- `durations[vid] = dur` on a Python dict: overwrite in place if the key
exists, else append a new entry. -/
def setEntry (m : List (String × ℚ)) (k : String) (v : ℚ) : List (String × ℚ) :=
  match m with
  | [] => [(k, v)]
  | (k', v') :: rest =>
    if k' = k then (k', v) :: rest else (k', v') :: setEntry rest k v

/-- Body of the `for el in root.findall(".//tripinfo")` loop of
`extract_pt_durations`: keep bus-like vehicles with a positive duration
(`if dur <= 0: continue`). -/
def stepTrip (m : List (String × ℚ)) (e : TripInfo) : List (String × ℚ) :=
  match vidOf e with
  | none => m
  | some vid =>
    if isBus (vtypeOf e) vid then
      match durOf e with
      | none => m
      | some dur => if dur ≤ 0 then m else setEntry m vid dur
    else m

/-- `extract_pt_durations` (get_table_of_old_methode.py, lines 28-66) on the
`tripinfo` elements of a well-formed file. -/
def extract_pt_durations (els : List TripInfo) : List (String × ℚ) :=
  els.foldl stepTrip []

/-- `extract_pt_durations` at the file level: a missing or malformed file
yields the empty mapping after a printed warning (lines 38-42). -/
def extractFile : Option (List TripInfo) → List (String × ℚ)
  | none => []
  | some els => extract_pt_durations els

/-! Aggregation of durations across replicates
(get_table_of_old_methode.py, lines 107-113):
`vessel_to_sum[vid] += dur; vessel_to_count[vid] += 1`. -/

/-- One `vessel_to_sum`/`vessel_to_count` update, fused into a single
association list from vehicle id to (sum, count). -/
def addDur (acc : List (String × ℚ × ℕ)) (k : String) (v : ℚ) :
    List (String × ℚ × ℕ) :=
  match acc with
  | [] => [(k, v, 1)]
  | (k', sc) :: rest =>
    if k' = k then (k', sc.1 + v, sc.2 + 1) :: rest
    else (k', sc) :: addDur rest k v

/-- The two nested loops `for _, path in per_sim_files: for vid, dur in
durs.items(): ...` accumulating sums and counts per vehicle. -/
def accumulate (simsMaps : List (List (String × ℚ))) : List (String × ℚ × ℕ) :=
  simsMaps.foldl (fun acc durs =>
    durs.foldl (fun a p => addDur a p.1 p.2) acc) []

/-- One row of the per-value sheet of get_table_of_old_methode.py
(lines 122-128). -/
structure VRow where
  vehicle_id : String
  baseline_duration_s : ℚ
  avg_duration_s : ℚ
  delay_s : ℚ
  sims_count : ℕ
  deriving DecidableEq

/-- The `for vid, base_dur in baseline.items()` loop (lines 117-128):
rows only for baseline vehicles that occur in some replicate;
`avg_dur = vessel_to_sum[vid] / max(1, vessel_to_count[vid])` and
`delay = avg_dur - base_dur`. -/
def vRows (baseline : List (String × ℚ)) (simsMaps : List (List (String × ℚ))) :
    List VRow :=
  baseline.filterMap (fun e =>
    match (accumulate simsMaps).lookup e.1 with
    | none => none
    | some sc =>
      let avg := sc.1 / ((max 1 sc.2 : ℕ) : ℚ)
      some ⟨e.1, e.2, avg, avg - e.2, sc.2⟩)

/-! Characterisation of `accumulate` by sums over replicate lookups. -/

/-- A (sum, count) pair after absorbing one more duration. -/
def bump : Option (ℚ × ℕ) → ℚ → Option (ℚ × ℕ)
  | none, v => some (v, 1)
  | some sc, v => some (sc.1 + v, sc.2 + 1)

/-- A (sum, count) pair after absorbing a list of durations. -/
def mergeOpt : Option (ℚ × ℕ) → List ℚ → Option (ℚ × ℕ)
  | none, [] => none
  | none, v :: vs => some (v + vs.sum, vs.length + 1)
  | some sc, vs => some (sc.1 + vs.sum, sc.2 + vs.length)

theorem mergeOpt_nil (o : Option (ℚ × ℕ)) : mergeOpt o [] = o := by
  cases o with
  | none => rfl
  | some sc => simp [mergeOpt]

theorem mergeOpt_bump (o : Option (ℚ × ℕ)) (v : ℚ) (vs : List ℚ) :
    mergeOpt (bump o v) vs = mergeOpt o (v :: vs) := by
  cases o with
  | none => simp [bump, mergeOpt]; omega
  | some sc =>
    simp [bump, mergeOpt]
    constructor
    · ring
    · omega

theorem mergeOpt_append (o : Option (ℚ × ℕ)) (vs ws : List ℚ) :
    mergeOpt (mergeOpt o vs) ws = mergeOpt o (vs ++ ws) := by
  cases o with
  | none =>
    cases vs with
    | nil => simp [mergeOpt_nil]
    | cons v vs =>
      cases ws with
      | nil => simp [mergeOpt]
      | cons w ws =>
        simp [mergeOpt]
        constructor
        · ring
        · omega
  | some sc =>
    cases ws with
    | nil => simp [mergeOpt]
    | cons w ws =>
      simp [mergeOpt]
      constructor
      · ring
      · omega

theorem lookup_addDur (acc : List (String × ℚ × ℕ)) (k : String) (v : ℚ)
    (k' : String) :
    (addDur acc k v).lookup k' =
      if k' = k then bump (acc.lookup k') v else acc.lookup k' := by
  induction acc with
  | nil =>
    by_cases h : k' = k
    · subst h; simp [addDur, List.lookup_cons, bump]
    · simp [addDur, List.lookup_cons, beq_false_of_ne h, h, List.lookup]
  | cons hd tl ih =>
    obtain ⟨a, sc⟩ := hd
    by_cases hak : a = k
    · subst hak
      by_cases h : k' = a
      · have h1 : (k' == a) = true := beq_iff_eq.mpr h
        simp [addDur, List.lookup_cons, h1, h, bump]
      · have h1 : (k' == a) = false := beq_false_of_ne h
        simp [addDur, List.lookup_cons, h1, h]
    · simp only [addDur, if_neg hak]
      by_cases h : k' = a
      · have h1 : (k' == a) = true := beq_iff_eq.mpr h
        have h2 : ¬k' = k := fun hc => hak (h.symm.trans hc)
        simp [List.lookup_cons, h1, h2]
      · have h1 : (k' == a) = false := beq_false_of_ne h
        simp only [List.lookup_cons, h1]
        exact ih

theorem lookup_foldl_addDur (ps : List (String × ℚ)) :
    ∀ (acc : List (String × ℚ × ℕ)) (k : String),
      ((ps.foldl (fun a p => addDur a p.1 p.2) acc).lookup k) =
        mergeOpt (acc.lookup k) ((ps.filter (fun p => p.1 == k)).map Prod.snd) := by
  induction ps with
  | nil => intro acc k; simp [mergeOpt_nil]
  | cons p rest ih =>
    intro acc k
    simp only [List.foldl_cons]
    rw [ih (addDur acc p.1 p.2) k, lookup_addDur]
    by_cases hk : k = p.1
    · rw [if_pos hk, mergeOpt_bump]
      have h1 : (p.1 == k) = true := beq_iff_eq.mpr hk.symm
      simp [List.filter_cons, h1]
    · rw [if_neg hk]
      have h1 : (p.1 == k) = false :=
        beq_false_of_ne (fun hc => hk hc.symm)
      simp [List.filter_cons, h1]

theorem filter_key_eq_nil {β : Type} (d : List (String × β)) (k : String)
    (h : k ∉ d.map Prod.fst) : d.filter (fun p => p.1 == k) = [] := by
  apply List.filter_eq_nil_iff.mpr
  intro p hp
  intro hc
  exact h (List.mem_map.mpr ⟨p, hp, beq_iff_eq.mp hc⟩)

theorem filter_lookup_of_nodup (d : List (String × ℚ)) (k : String)
    (hnd : (d.map Prod.fst).Nodup) :
    (d.filter (fun p => p.1 == k)).map Prod.snd = (d.lookup k).toList := by
  induction d with
  | nil => rfl
  | cons e tl ih =>
    obtain ⟨a, b⟩ := e
    simp only [List.map_cons, List.nodup_cons] at hnd
    by_cases hak : a = k
    · subst hak
      have htl : (tl.filter (fun p => p.1 == a)) = [] :=
        filter_key_eq_nil tl a hnd.1
      simp [List.filter_cons, List.lookup_cons, htl]
    · simp [List.filter_cons, List.lookup_cons, beq_false_of_ne hak,
        beq_false_of_ne (fun hc : k = a => hak hc.symm), ih hnd.2]

theorem accumulate_foldl_lookup (simsMaps : List (List (String × ℚ))) :
    ∀ (acc : List (String × ℚ × ℕ)) (k : String),
      (∀ d ∈ simsMaps, (d.map Prod.fst).Nodup) →
      ((simsMaps.foldl (fun a durs =>
          durs.foldl (fun a p => addDur a p.1 p.2) a) acc).lookup k) =
        mergeOpt (acc.lookup k)
          (simsMaps.filterMap (fun d => d.lookup k)) := by
  induction simsMaps with
  | nil => intro acc k _; simp [mergeOpt_nil]
  | cons d rest ih =>
    intro acc k hrep
    simp only [List.foldl_cons]
    rw [ih _ k (fun d hd => hrep d (List.mem_cons_of_mem _ hd)),
      lookup_foldl_addDur,
      filter_lookup_of_nodup d k (hrep d (List.mem_cons_self _ _)),
      mergeOpt_append]
    cases hdk : d.lookup k with
    | none => simp [List.filterMap_cons, hdk]
    | some v => simp [List.filterMap_cons, hdk]

theorem accumulate_lookup (simsMaps : List (List (String × ℚ))) (k : String)
    (hrep : ∀ d ∈ simsMaps, (d.map Prod.fst).Nodup) :
    (accumulate simsMaps).lookup k =
      mergeOpt none (simsMaps.filterMap (fun d => d.lookup k)) := by
  unfold accumulate
  rw [accumulate_foldl_lookup simsMaps [] k hrep]
  rfl

theorem mem_vRows (baseline : List (String × ℚ))
    (simsMaps : List (List (String × ℚ))) :
    ∀ r ∈ vRows baseline simsMaps,
      r.vehicle_id ∈ baseline.map Prod.fst ∧
        r.delay_s = r.avg_duration_s - r.baseline_duration_s := by
  intro r hr
  unfold vRows at hr
  rcases List.mem_filterMap.mp hr with ⟨e, he, heq⟩
  split at heq
  · exact absurd heq (by simp)
  · rcases Option.some.inj heq with rfl
    exact ⟨List.mem_map.mpr ⟨e, he, rfl⟩, rfl⟩

theorem filter_vRows_not_mem (baseline : List (String × ℚ))
    (simsMaps : List (List (String × ℚ))) (k : String)
    (h : k ∉ baseline.map Prod.fst) :
    (vRows baseline simsMaps).filter (fun r => r.vehicle_id == k) = [] := by
  apply List.filter_eq_nil_iff.mpr
  intro r hr
  have := (mem_vRows baseline simsMaps r hr).1
  intro hc
  exact h (beq_iff_eq.mp hc ▸ this)

theorem filter_vRows (baseline : List (String × ℚ))
    (simsMaps : List (List (String × ℚ))) (vid : String) (bd : ℚ)
    (hnd : (baseline.map Prod.fst).Nodup)
    (hb : baseline.lookup vid = some bd) (sc : ℚ × ℕ)
    (hacc : (accumulate simsMaps).lookup vid = some sc) :
    (vRows baseline simsMaps).filter (fun r => r.vehicle_id == vid)
      = [⟨vid, bd, sc.1 / ((max 1 sc.2 : ℕ) : ℚ),
          sc.1 / ((max 1 sc.2 : ℕ) : ℚ) - bd, sc.2⟩] := by
  induction baseline with
  | nil => simp [List.lookup] at hb
  | cons e rest ih =>
    obtain ⟨a, b⟩ := e
    simp only [List.map_cons, List.nodup_cons] at hnd
    by_cases hak : a = vid
    · subst hak
      have hbd : b = bd := by
        simpa [List.lookup_cons] using hb
      subst hbd
      unfold vRows
      simp only [List.filterMap_cons, hacc]
      have hrest : (vRows rest simsMaps).filter
          (fun r => r.vehicle_id == a) = [] :=
        filter_vRows_not_mem rest simsMaps a hnd.1
      simp only [List.filter_cons]
      have hself : ((⟨a, b, sc.1 / ((max 1 sc.2 : ℕ) : ℚ),
          sc.1 / ((max 1 sc.2 : ℕ) : ℚ) - b, sc.2⟩ : VRow).vehicle_id == a)
            = true := by simp
      rw [hself]
      simp only [vRows] at hrest
      rw [hrest]
      simp
    · have hb' : rest.lookup vid = some bd := by
        simpa [List.lookup_cons,
          beq_false_of_ne (fun hc : vid = a => hak hc.symm)] using hb
      have ihr := ih hnd.2 hb'
      unfold vRows
      simp only [List.filterMap_cons]
      cases hcc : (accumulate simsMaps).lookup a with
      | none =>
        simp only [vRows] at ihr
        exact ihr
      | some sc' =>
        simp only [List.filter_cons]
        have hne : ((⟨a, b, sc'.1 / ((max 1 sc'.2 : ℕ) : ℚ),
            sc'.1 / ((max 1 sc'.2 : ℕ) : ℚ) - b, sc'.2⟩ : VRow).vehicle_id
              == vid) = false := by
          simp only [VRow.mk.injEq]
          exact beq_false_of_ne hak
        rw [hne]
        simp only [vRows] at ihr
        exact ihr

end Sumo

namespace Sumo

/-!  Claim theorems for the extractor and the two aligners. -/

/-- C1: for every pair of stop-delay measurement sets and every identity
present in both with `b` and `p` occurrences, the aligner emits exactly
`min b p` records for that identity, pairing occurrence ranks `1..min b p`
positionally; an identity present in only one of the two sets yields no
records at all. -/
theorem C1_min_occurrence_pairing (base mixed : List (String × List ℚ))
    (hnd : (base.map Prod.fst).Nodup) (k : String) :
    (∀ bl ml, base.lookup k = some bl → mixed.lookup k = some ml →
        ((alignPair base mixed).filter (fun r => r.stop == k)).length
            = min bl.length ml.length
          ∧ ∀ i < min bl.length ml.length,
              ((alignPair base mixed).filter (fun r => r.stop == k)).getD i
                  ⟨"", 0, 0, 0, 0⟩
                = ⟨k, i + 1, bl.getD i 0, ml.getD i 0,
                    ml.getD i 0 - bl.getD i 0⟩)
      ∧ ((base.lookup k = none ∨ mixed.lookup k = none) →
          (alignPair base mixed).filter (fun r => r.stop == k) = []) := by
  constructor
  · intro bl ml hb hm
    rw [filter_alignPair base mixed hnd k bl ml hb hm]
    constructor
    · exact alignStopAux_length k 1 bl ml
    · intro i hi
      simp only [alignStop]
      rw [alignStopAux_getD k bl ml 1 i hi]
      congr 1
      omega
  · exact filter_alignPair_one_sided base mixed k

theorem C1_min_occurrence_pairing_witness :
    ((alignPair [("A", [10, 20])] [("A", [12, 21])]).filter
          (fun r => r.stop == "A")).length = 2
      ∧ ((alignPair [("A", [10, 20])] [("A", [12, 21])]).filter
          (fun r => r.stop == "A")).getD 0 ⟨"", 0, 0, 0, 0⟩
        = ⟨"A", 1, 10, 12, 2⟩ := by
  have h := (C1_min_occurrence_pairing [("A", [10, 20])] [("A", [12, 21])]
      (by decide) "A").1 [10, 20] [12, 21] (by decide) (by decide)
  exact ⟨h.1.trans (by decide), (h.2 0 (by decide)).trans (by norm_num)⟩

/-- C3 counterexample: the source takes the identity from `stop` also when
`busStop` is present but empty (Python falsiness), while the claim words
say the identity comes from `busStop` whenever that attribute is present. -/
theorem C3_identity_cex :
    stopIdClaimed ⟨some "", some "S", some (some 1)⟩ = some ""
      ∧ stopIdOf ⟨some "", some "S", some (some 1)⟩ = some "S"
      ∧ stopIdOf ⟨some "", some "S", some (some 1)⟩
          ≠ stopIdClaimed ⟨some "", some "S", some (some 1)⟩
      ∧ parse_stop_delays [⟨some "", some "S", some (some 1)⟩]
          = [("S", [1])] := by
  refine ⟨by decide, by decide, by decide, by decide⟩

theorem stepStop_congr (m : List (String × List ℚ)) (e e' : StopInfo)
    (hid : stopIdOf e = stopIdOf e') (hdv : delayValOf e = delayValOf e') :
    stepStop m e = stepStop m e' := by
  unfold stepStop
  rw [hid, hdv]

/-- C3 (amended): the extractor takes the identity from `busStop` when that
attribute is present and non-empty, otherwise from `stop` when present and
non-empty; `delay` missing defaults to 0; a present-but-unparseable `delay`
skips the record entirely; stored occurrence lists are sorted by delay
ascending. -/
theorem C3_extractor_amended (els : List StopInfo) (e : StopInfo) :
    (e.delay = some none →
        parse_stop_delays (els ++ [e]) = parse_stop_delays els)
      ∧ (e.delay = none →
          parse_stop_delays (els ++ [e])
            = parse_stop_delays (els ++ [{ e with delay := some (some 0) }]))
      ∧ (∀ s, e.busStop = some s → s ≠ "" → stopIdOf e = some s)
      ∧ ((e.busStop = none ∨ e.busStop = some "") →
          ∀ t, e.stop = some t → t ≠ "" → stopIdOf e = some t)
      ∧ (∀ p ∈ parse_stop_delays els, p.2.Sorted (· ≤ ·)) := by
  refine ⟨?_, ?_, ?_, ?_, ?_⟩
  · intro h
    unfold parse_stop_delays
    rw [List.foldl_append]
    simp only [List.foldl_cons, List.foldl_nil]
    rw [stepStop_skip _ _ (by simp [delayValOf, h])]
  · intro h
    obtain ⟨bs, st, dl⟩ := e
    simp only at h
    subst h
    unfold parse_stop_delays
    rw [List.foldl_append, List.foldl_append]
    simp only [List.foldl_cons, List.foldl_nil]
    have hstep : stepStop (List.foldl stepStop [] els) ⟨bs, st, none⟩
        = stepStop (List.foldl stepStop [] els) ⟨bs, st, some (some 0)⟩ :=
      stepStop_congr _ ⟨bs, st, none⟩ ⟨bs, st, some (some 0)⟩ rfl rfl
    rw [hstep]
  · intro s hbs hs
    simp [stopIdOf, hbs, hs]
  · intro h t ht hte
    rcases h with h | h <;> simp [stopIdOf, h, ht, hte]
  · intro p hp
    exact (parse_stop_delays_entry els p hp).2

theorem C3_extractor_amended_witness :
    parse_stop_delays ([] ++ [⟨some "B", none, some none⟩])
        = parse_stop_delays []
      ∧ stopIdOf ⟨some "B", none, some (some 1)⟩ = some "B" :=
  ⟨(C3_extractor_amended [] ⟨some "B", none, some none⟩).1 rfl,
    (C3_extractor_amended [] ⟨some "B", none, some (some 1)⟩).2.2.1 "B" rfl
      (by decide)⟩

/-- C4: in vehicle-duration mode the replicate durations for a common
identity are combined by arithmetic mean and then differenced against the
baseline duration, giving exactly one aligned row for that identity, whose
`sims_count` is the number of contributing replicates. -/
theorem C4_vehicle_mean (baseline : List (String × ℚ))
    (simsMaps : List (List (String × ℚ)))
    (hnd : (baseline.map Prod.fst).Nodup)
    (hrep : ∀ d ∈ simsMaps, (d.map Prod.fst).Nodup)
    (vid : String) (bd : ℚ) (hb : baseline.lookup vid = some bd)
    (ds : List ℚ) (hds : simsMaps.filterMap (fun d => d.lookup vid) = ds)
    (hne : ds ≠ []) :
    (vRows baseline simsMaps).filter (fun r => r.vehicle_id == vid)
      = [⟨vid, bd, ds.sum / (ds.length : ℚ),
          ds.sum / (ds.length : ℚ) - bd, ds.length⟩] := by
  obtain ⟨v, vs, rfl⟩ : ∃ v vs, ds = v :: vs := by
    cases ds with
    | nil => exact absurd rfl hne
    | cons v vs => exact ⟨v, vs, rfl⟩
  have hacc : (accumulate simsMaps).lookup vid
      = some ((v :: vs).sum, (v :: vs).length) := by
    rw [accumulate_lookup simsMaps vid hrep, hds]
    simp [mergeOpt]
  have h := filter_vRows baseline simsMaps vid bd hnd hb _ hacc
  rw [h]
  have hmax : (max 1 (v :: vs).length : ℕ) = (v :: vs).length := by
    simp
  rw [hmax]

theorem C4_vehicle_mean_witness :
    (vRows [("bus_1", 100)] [[("bus_1", 110)], [("bus_1", 130)]]).filter
        (fun r => r.vehicle_id == "bus_1")
      = [⟨"bus_1", 100, 120, 20, 2⟩] := by
  have h := C4_vehicle_mean [("bus_1", 100)] [[("bus_1", 110)], [("bus_1", 130)]]
    (by decide) (by decide) "bus_1" 100 (by decide) [110, 130] (by decide)
    (by decide)
  exact h.trans (by norm_num)

/-- C6: every emitted delta equals perturbed minus baseline of its row, and
`perturbed - delta` recovers the baseline exactly, in both the stop-delay
aligner and the vehicle-duration aligner. -/
theorem C6_delta_roundtrip :
    (∀ (base mixed : List (String × List ℚ)) (r : AlignedRecord),
        r ∈ alignPair base mixed →
          r.delay_delta_s = r.delay_mixed_s - r.delay_baseline_s
            ∧ r.delay_mixed_s - r.delay_delta_s = r.delay_baseline_s)
      ∧ (∀ (baseline : List (String × ℚ))
            (simsMaps : List (List (String × ℚ))) (r : VRow),
          r ∈ vRows baseline simsMaps →
            r.delay_s = r.avg_duration_s - r.baseline_duration_s
              ∧ r.avg_duration_s - r.delay_s = r.baseline_duration_s) := by
  constructor
  · intro base mixed r hr
    have h := mem_alignPair base mixed r hr
    exact ⟨h, by rw [h]; ring⟩
  · intro baseline simsMaps r hr
    have h := (mem_vRows baseline simsMaps r hr).2
    exact ⟨h, by rw [h]; ring⟩

theorem C6_delta_roundtrip_witness :
    (⟨"A", 1, 10, 12, 2⟩ : AlignedRecord).delay_delta_s
        = (⟨"A", 1, 10, 12, 2⟩ : AlignedRecord).delay_mixed_s
          - (⟨"A", 1, 10, 12, 2⟩ : AlignedRecord).delay_baseline_s
      ∧ (⟨"A", 1, 10, 12, 2⟩ : AlignedRecord).delay_mixed_s
          - (⟨"A", 1, 10, 12, 2⟩ : AlignedRecord).delay_delta_s
        = (⟨"A", 1, 10, 12, 2⟩ : AlignedRecord).delay_baseline_s :=
  C6_delta_roundtrip.1 [("A", [10, 20])] [("A", [12, 21])]
    ⟨"A", 1, 10, 12, 2⟩ (by
      have hp : alignPair [("A", [10, 20])] [("A", [12, 21])]
          = [⟨"A", 1, 10, 12, 2⟩, ⟨"A", 2, 20, 21, 1⟩] := by
        norm_num [alignPair, alignEntry, alignStop, alignStopAux,
          List.lookup_cons]
        intro h
        simp at h
      rw [hp]
      exact List.mem_cons_self _ _)

/-- C10: the stop-delay extractor maps each identity it contains to a
non-empty list of measurements sorted in non-decreasing order. -/
theorem C10_nonempty_sorted (els : List StopInfo) (p : String × List ℚ)
    (hp : p ∈ parse_stop_delays els) : p.2 ≠ [] ∧ p.2.Sorted (· ≤ ·) :=
  parse_stop_delays_entry els p hp

theorem C10_nonempty_sorted_witness :
    (("A", ([2] : List ℚ)) : String × List ℚ).2 ≠ []
      ∧ (("A", ([2] : List ℚ)) : String × List ℚ).2.Sorted (· ≤ ·) :=
  C10_nonempty_sorted [⟨some "A", none, some (some 2)⟩] ("A", [2]) (by decide)

end Sumo

namespace Sumo

/-! The summarizer: `df["..."].describe(percentiles=[0.1, 0.5, 0.9])`
(export_pt_delay_excel.py lines 163-185, get_table_of_old_methode.py
lines 138-160). -/

/-- Index of the lower order statistic for the linear-interpolation
percentile: `floor (q * (n - 1))`. -/
def pIdx (s : List ℚ) (q : ℚ) : ℕ :=
  (⌊q * ((s.length : ℚ) - 1)⌋).toNat

/-- Percentile with linear interpolation between order statistics of an
already sorted sample, as computed by pandas `describe`:
`x[i] + (h - i) * (x[i+1] - x[i])` with `h = q * (n - 1)`, `i = floor h`
(when `i` is the last index the interpolation term vanishes). -/
def percSorted (s : List ℚ) (q : ℚ) : ℚ :=
  if s = [] then 0
  else
    let lo := s.getD (pIdx s q) 0
    let hi := s.getD (pIdx s q + 1) lo
    lo + (q * ((s.length : ℚ) - 1) - (pIdx s q : ℚ)) * (hi - lo)

/-- One row of the `summary` sheet.  Both scripts emit the same statistics
(get_table_of_old_methode.py names the columns `*_delay_s` instead of
`*_delta_s`). -/
structure SummaryRow where
  value : ℕ
  count : ℕ
  mean_delta_s : ℚ
  median_delta_s : ℚ
  p10_delta_s : ℚ
  p90_delta_s : ℚ
  min_delta_s : ℚ
  max_delta_s : ℚ
  deriving DecidableEq

/-- The per-value summary row: `describe` statistics of the delta column
when the sheet is non-empty, and the all-zero row otherwise.  `min`/`max`
of the sample are the first/last entries of its ascending sort. -/
def mkSummaryRow (v : ℕ) (xs : List ℚ) : SummaryRow :=
  if xs.isEmpty then ⟨v, 0, 0, 0, 0, 0, 0, 0⟩
  else
    let s := sortAsc xs
    ⟨v, xs.length, xs.sum / (xs.length : ℚ),
      percSorted s (1 / 2), percSorted s (1 / 10), percSorted s (9 / 10),
      s.getD 0 0, s.getD (s.length - 1) 0⟩

/-- `sdf = pd.DataFrame(summaries).sort_values("value")`. -/
def sortByValue (rows : List SummaryRow) : List SummaryRow :=
  rows.insertionSort (fun a b => a.value ≤ b.value)

end Sumo

namespace Sumo

/-! The export_pt_delay_excel.py pipeline. -/

/-- `_generate_values` (lines 63-69): 1000..33000 step 1000 followed by
36000..58000 step 2000. -/
def exportValues : List ℕ :=
  List.range' 1000 33 1000 ++ List.range' 36000 12 2000

/-- Baseline loading (lines 93-103): for each sim index `1..sims`, a
baseline file is resolved and parsed; a missing (or malformed) file and a
file with no usable delays both produce only a printed warning and no
entry.  `bf s = none` models a missing or unparseable file. -/
def baselinesOf (bf : ℕ → Option (List StopInfo)) (sims : ℕ) :
    List (ℕ × List (String × List ℚ)) :=
  (List.range' 1 sims).filterMap (fun s =>
    match bf s with
    | none => none
    | some els =>
      let b := parse_stop_delays els
      if b.isEmpty then none else some (s, b))

/-- Rows contributed by one replicate of one value (lines 122-143):
parse the perturbed file, skip the replicate if its baseline is absent
(`if not base: continue`), else align. -/
def simBlock (baselines : List (ℕ × List (String × List ℚ)))
    (mixedOf : ℕ → Option (List StopInfo)) (sim : ℕ) :
    List (ℕ × AlignedRecord) :=
  let mixed := parseStopDelaysFile (mixedOf sim)
  match baselines.lookup sim with
  | none => []
  | some base =>
    if base.isEmpty then []
    else (alignPair base mixed).map (fun r => (sim, r))

/-- The `for sim in range(1, args.sims + 1)` loop (lines 121-143). -/
def rowsForValue (baselines : List (ℕ × List (String × List ℚ)))
    (mixedOf : ℕ → Option (List StopInfo)) (sims : ℕ) :
    List (ℕ × AlignedRecord) :=
  (List.range' 1 sims).foldr
    (fun sim acc => simBlock baselines mixedOf sim ++ acc) []

/-- The emitted workbook: one sheet per requested value, in request order,
then the summary sheet. -/
structure Report where
  sheets : List (ℕ × List (ℕ × AlignedRecord))
  summary : List SummaryRow

/-- The whole pipeline of export_pt_delay_excel.py `main` (lines 84-191)
apart from argument parsing and the Excel writing mechanics;
`files v sim` is the content of `stop_events_<v>_<sim>.xml`
(`none` = missing or unparseable). -/
def buildExportReport (bf : ℕ → Option (List StopInfo))
    (files : ℕ → ℕ → Option (List StopInfo)) (sims : ℕ) : Report :=
  let baselines := baselinesOf bf sims
  { sheets := exportValues.map
      (fun v => (v, rowsForValue baselines (files v) sims)),
    summary := sortByValue (exportValues.map (fun v =>
      mkSummaryRow v ((rowsForValue baselines (files v) sims).map
        (fun p => p.2.delay_delta_s)))) }

/-- export_pt_delay_excel.py `main` as a fallible computation.  The script
has no fatal condition for missing or unusable baselines — they produce
per-sim warnings only — so the run always completes normally (exit 0). -/
def exportRun (bf : ℕ → Option (List StopInfo))
    (files : ℕ → ℕ → Option (List StopInfo)) (sims : ℕ) :
    Except String Report :=
  Except.ok (buildExportReport bf files sims)

/-! The get_table_of_old_methode.py pipeline. -/

/-- `all_values = sorted(value_to_sims.keys())` (line 100): the distinct
perturbation values discovered from matching file names, sorted. -/
def all_values (names : List (ℕ × ℕ)) : List ℕ :=
  ((names.map Prod.fst).dedup).insertionSort (· ≤ ·)

/-- The replicate indices discovered for one value, sorted
(`mapping[value].sort(key=lambda t: t[0])`, line 79). -/
def simsOf (v : ℕ) (names : List (ℕ × ℕ)) : List ℕ :=
  ((names.filter (fun p => p.1 == v)).map Prod.snd).insertionSort (· ≤ ·)

/-- Per-value sheet rows of get_table_of_old_methode.py (lines 104-128):
extract each replicate file for this value and aggregate. -/
def gRowsFor (baseline : List (String × ℚ)) (names : List (ℕ × ℕ))
    (content : ℕ → ℕ → Option (List TripInfo)) (v : ℕ) : List VRow :=
  vRows baseline ((simsOf v names).map (fun s => extractFile (content v s)))

/-- The emitted workbook of get_table_of_old_methode.py. -/
structure GReport where
  sheets : List (ℕ × List VRow)
  summary : List SummaryRow

/-- The per-value sheets and summary of get_table_of_old_methode.py `main`
(lines 99-164). -/
def buildGReport (baseline : List (String × ℚ)) (names : List (ℕ × ℕ))
    (content : ℕ → ℕ → Option (List TripInfo)) : GReport :=
  { sheets := (all_values names).map
      (fun v => (v, gRowsFor baseline names content v)),
    summary := sortByValue ((all_values names).map (fun v =>
      mkSummaryRow v ((gRowsFor baseline names content v).map VRow.delay_s))) }

/-- get_table_of_old_methode.py `main` as a fallible computation:
`if not baseline: raise SystemExit(f"No baseline PT durations parsed
from: {baseline_path}")` (lines 95-97) is the only fatal condition; the
message exits the process with a non-zero status. -/
def getTableRun (baselinePath : String) (bf : Option (List TripInfo))
    (names : List (ℕ × ℕ)) (content : ℕ → ℕ → Option (List TripInfo)) :
    Except String GReport :=
  let baseline := extractFile bf
  if baseline.isEmpty then
    Except.error ("No baseline PT durations parsed from: " ++ baselinePath)
  else
    Except.ok (buildGReport baseline names content)

/-- C2 counterexample: export_pt_delay_excel.py with zero usable baseline
measurements (every baseline file missing or unusable) completes normally
with exit status 0, contradicting the claim that "the program" terminates
with a non-zero exit status in that situation. -/
theorem C2_export_no_fatal_cex :
    baselinesOf (fun _ => none) 1 = []
      ∧ exportRun (fun _ => none) (fun _ _ => none) 1
          = Except.ok (buildExportReport (fun _ => none) (fun _ _ => none) 1) :=
  ⟨rfl, rfl⟩

/-- C2 (amended): only get_table_of_old_methode.py treats zero usable
baseline measurements as fatal, terminating with a non-zero exit status
and a descriptive message; export_pt_delay_excel.py merely warns per sim
and completes normally.  Other anomalies never abort either script. -/
theorem C2_fatal_baseline_amended :
    (∀ (p : String) (bf : Option (List TripInfo)) (names : List (ℕ × ℕ))
        (content : ℕ → ℕ → Option (List TripInfo)),
        (extractFile bf = [] →
            getTableRun p bf names content
              = Except.error ("No baseline PT durations parsed from: " ++ p))
          ∧ (extractFile bf ≠ [] →
              getTableRun p bf names content
                = Except.ok (buildGReport (extractFile bf) names content)))
      ∧ (∀ (bf : ℕ → Option (List StopInfo))
          (files : ℕ → ℕ → Option (List StopInfo)) (sims : ℕ),
          exportRun bf files sims
            = Except.ok (buildExportReport bf files sims)) := by
  refine ⟨fun p bf names content => ⟨fun h => ?_, fun h => ?_⟩,
    fun bf files sims => rfl⟩
  · unfold getTableRun
    rw [if_pos (List.isEmpty_iff.mpr h)]
  · unfold getTableRun
    rw [if_neg (fun hc => h (List.isEmpty_iff.mp hc))]

theorem C2_fatal_baseline_amended_witness :
    getTableRun "tripinfo.xml" none [] (fun _ _ => none)
        = Except.error ("No baseline PT durations parsed from: "
            ++ "tripinfo.xml")
      ∧ exportRun (fun _ => none) (fun _ _ => none) 1
        = Except.ok (buildExportReport (fun _ => none) (fun _ _ => none) 1) :=
  ⟨(C2_fatal_baseline_amended.1 "tripinfo.xml" none [] (fun _ _ => none)).1 rfl,
    C2_fatal_baseline_amended.2 (fun _ => none) (fun _ _ => none) 1⟩

theorem mem_sortByValue_of_mem {row : SummaryRow} {L : List SummaryRow}
    (h : row ∈ L) : row ∈ sortByValue L :=
  (List.perm_insertionSort _ _).mem_iff.mpr h

/-- C5: a perturbation value with zero aligned records still gets an
(empty) sheet and a summary row with count 0 and all statistics 0, in both
scripts. -/
theorem C5_empty_value_row :
    (∀ (bf : ℕ → Option (List StopInfo))
        (files : ℕ → ℕ → Option (List StopInfo)) (sims v : ℕ),
        v ∈ exportValues →
        rowsForValue (baselinesOf bf sims) (files v) sims = [] →
          (v, ([] : List (ℕ × AlignedRecord)))
              ∈ (buildExportReport bf files sims).sheets
            ∧ (⟨v, 0, 0, 0, 0, 0, 0, 0⟩ : SummaryRow)
              ∈ (buildExportReport bf files sims).summary)
      ∧ (∀ (baseline : List (String × ℚ)) (names : List (ℕ × ℕ))
          (content : ℕ → ℕ → Option (List TripInfo)) (v : ℕ),
          v ∈ all_values names →
          gRowsFor baseline names content v = [] →
            (v, ([] : List VRow)) ∈ (buildGReport baseline names content).sheets
              ∧ (⟨v, 0, 0, 0, 0, 0, 0, 0⟩ : SummaryRow)
                ∈ (buildGReport baseline names content).summary) := by
  constructor
  · intro bf files sims v hv hz
    unfold buildExportReport
    dsimp only
    constructor
    · exact List.mem_map.mpr ⟨v, hv, by simp [hz]⟩
    · exact mem_sortByValue_of_mem
        (List.mem_map.mpr ⟨v, hv, by simp [hz, mkSummaryRow]⟩)
  · intro baseline names content v hv hz
    unfold buildGReport
    dsimp only
    constructor
    · exact List.mem_map.mpr ⟨v, hv, by simp [hz]⟩
    · exact mem_sortByValue_of_mem
        (List.mem_map.mpr ⟨v, hv, by simp [hz, mkSummaryRow]⟩)

set_option maxHeartbeats 1000000 in
theorem C5_empty_value_row_witness :
    (1000, ([] : List (ℕ × AlignedRecord)))
        ∈ (buildExportReport (fun _ => none) (fun _ _ => none) 0).sheets
      ∧ (⟨1000, 0, 0, 0, 0, 0, 0, 0⟩ : SummaryRow)
        ∈ (buildExportReport (fun _ => none) (fun _ _ => none) 0).summary :=
  C5_empty_value_row.1 (fun _ => none) (fun _ _ => none) 0 1000 (by decide) rfl

theorem sortByValue_sorted_map (L : List SummaryRow) :
    List.Sorted (· ≤ ·) ((sortByValue L).map SummaryRow.value) := by
  haveI h1 : IsTotal SummaryRow (fun a b => a.value ≤ b.value) :=
    ⟨fun a b => Nat.le_total a.value b.value⟩
  haveI h2 : IsTrans SummaryRow (fun a b => a.value ≤ b.value) :=
    ⟨fun _ _ _ hab hbc => Nat.le_trans hab hbc⟩
  have hs := List.sorted_insertionSort
    (fun a b : SummaryRow => a.value ≤ b.value) L
  exact List.Pairwise.map SummaryRow.value (fun _ _ h => h) hs

theorem buildExportReport_sheets (bf : ℕ → Option (List StopInfo))
    (files : ℕ → ℕ → Option (List StopInfo)) (sims : ℕ) :
    (buildExportReport bf files sims).sheets
      = exportValues.map (fun v =>
          (v, rowsForValue (baselinesOf bf sims) (files v) sims)) := by
  unfold buildExportReport
  dsimp only

theorem buildExportReport_summary (bf : ℕ → Option (List StopInfo))
    (files : ℕ → ℕ → Option (List StopInfo)) (sims : ℕ) :
    (buildExportReport bf files sims).summary
      = sortByValue (exportValues.map (fun v =>
          mkSummaryRow v
            ((rowsForValue (baselinesOf bf sims) (files v) sims).map
              (fun p => p.2.delay_delta_s)))) := by
  unfold buildExportReport
  dsimp only

theorem buildGReport_sheets (baseline : List (String × ℚ))
    (names : List (ℕ × ℕ)) (content : ℕ → ℕ → Option (List TripInfo)) :
    (buildGReport baseline names content).sheets
      = (all_values names).map
          (fun v => (v, gRowsFor baseline names content v)) := by
  unfold buildGReport
  dsimp only

theorem buildGReport_summary (baseline : List (String × ℚ))
    (names : List (ℕ × ℕ)) (content : ℕ → ℕ → Option (List TripInfo)) :
    (buildGReport baseline names content).summary
      = sortByValue ((all_values names).map (fun v =>
          mkSummaryRow v
            ((gRowsFor baseline names content v).map VRow.delay_s))) := by
  unfold buildGReport
  dsimp only

theorem exportValues_sorted : List.Sorted (· < ·) exportValues := by
  unfold exportValues
  rw [List.Sorted, List.pairwise_append]
  refine ⟨List.pairwise_lt_range' 1000 33 1000 (by omega),
    List.pairwise_lt_range' 36000 12 2000 (by omega), ?_⟩
  intro a ha b hb
  obtain ⟨i, hi, rfl⟩ := List.mem_range'.mp ha
  obtain ⟨j, hj, rfl⟩ := List.mem_range'.mp hb
  omega

/-- C7: each report has one sheet per requested value, in request order —
the fixed enumeration for export_pt_delay_excel.py, the sorted discovered
values for get_table_of_old_methode.py — and a summary whose rows are
sorted by ascending value (one row per requested value). -/
theorem C7_sheet_order (bf : ℕ → Option (List StopInfo))
    (files : ℕ → ℕ → Option (List StopInfo)) (sims : ℕ)
    (baseline : List (String × ℚ)) (names : List (ℕ × ℕ))
    (content : ℕ → ℕ → Option (List TripInfo)) :
    ((buildExportReport bf files sims).sheets.map Prod.fst = exportValues)
      ∧ List.Sorted (· < ·) exportValues
      ∧ List.Sorted (· ≤ ·)
          ((buildExportReport bf files sims).summary.map SummaryRow.value)
      ∧ ((buildExportReport bf files sims).summary.map SummaryRow.value).Perm
          exportValues
      ∧ ((buildGReport baseline names content).sheets.map Prod.fst
          = all_values names)
      ∧ List.Sorted (· ≤ ·) (all_values names)
      ∧ List.Sorted (· ≤ ·)
          ((buildGReport baseline names content).summary.map SummaryRow.value) := by
  refine ⟨?_, exportValues_sorted, ?_, ?_, ?_,
    List.sorted_insertionSort _ _, ?_⟩
  · rw [buildExportReport_sheets, List.map_map]
    simp [Function.comp_def]
  · rw [buildExportReport_summary]
    exact sortByValue_sorted_map _
  · rw [buildExportReport_summary]
    unfold sortByValue
    refine ((List.perm_insertionSort _ _).map SummaryRow.value).trans ?_
    rw [List.map_map]
    have hcomp : (SummaryRow.value ∘ fun v =>
        mkSummaryRow v ((rowsForValue (baselinesOf bf sims) (files v) sims).map
          (fun p => p.2.delay_delta_s))) = fun v => v := by
      funext v
      simp only [Function.comp]
      unfold mkSummaryRow
      split <;> rfl
    rw [hcomp]
    simp
  · rw [buildGReport_sheets, List.map_map]
    simp [Function.comp_def]
  · rw [buildGReport_summary]
    exact sortByValue_sorted_map _

theorem alignPair_nil_mixed (base : List (String × List ℚ)) :
    alignPair base [] = [] := by
  induction base with
  | nil => rfl
  | cons e rest ih =>
    rw [alignPair_cons, ih, List.append_nil]
    simp [alignEntry, List.lookup]

theorem mem_simBlock_fst (baselines : List (ℕ × List (String × List ℚ)))
    (mixedOf : ℕ → Option (List StopInfo)) (sim : ℕ) :
    ∀ p ∈ simBlock baselines mixedOf sim, p.1 = sim := by
  intro p hp
  unfold simBlock at hp
  split at hp
  · simp at hp
  · split at hp
    · simp at hp
    · rcases List.mem_map.mp hp with ⟨r, _, hr⟩
      rw [← hr]

theorem simBlock_missing (baselines : List (ℕ × List (String × List ℚ)))
    (mixedOf : ℕ → Option (List StopInfo)) (sim : ℕ)
    (h : mixedOf sim = none) : simBlock baselines mixedOf sim = [] := by
  unfold simBlock
  rw [h]
  cases List.lookup sim baselines with
  | none => rfl
  | some base =>
    by_cases hemp : base.isEmpty
    · simp [hemp]
    · simp [hemp, parseStopDelaysFile, alignPair_nil_mixed]

theorem filter_rows_foldr_eq_sim (baselines : List (ℕ × List (String × List ℚ)))
    (mixedOf : ℕ → Option (List StopInfo)) (L : List ℕ) (sim : ℕ)
    (hz : simBlock baselines mixedOf sim = []) :
    ((L.foldr (fun j acc => simBlock baselines mixedOf j ++ acc) []).filter
      (fun p => p.1 == sim)) = [] := by
  induction L with
  | nil => rfl
  | cons j rest ih =>
    simp only [List.foldr_cons, List.filter_append, ih, List.append_nil]
    by_cases hj : j = sim
    · rw [hj, hz]; rfl
    · apply List.filter_eq_nil_iff.mpr
      intro p hp
      have := mem_simBlock_fst baselines mixedOf j p hp
      simp [this, hj]

theorem filter_rows_foldr_ne_sim (baselines : List (ℕ × List (String × List ℚ)))
    (f g : ℕ → Option (List StopInfo)) (L : List ℕ) (sim : ℕ)
    (hfg : ∀ j, j ≠ sim → g j = f j) :
    ((L.foldr (fun j acc => simBlock baselines g j ++ acc) []).filter
        (fun p => p.1 != sim))
      = ((L.foldr (fun j acc => simBlock baselines f j ++ acc) []).filter
        (fun p => p.1 != sim)) := by
  induction L with
  | nil => rfl
  | cons j rest ih =>
    simp only [List.foldr_cons, List.filter_append, ih]
    congr 1
    by_cases hj : j = sim
    · have hgen : ∀ mo : ℕ → Option (List StopInfo),
          (simBlock baselines mo j).filter (fun p => p.1 != sim) = [] := by
        intro mo
        apply List.filter_eq_nil_iff.mpr
        intro p hp
        have hpj := mem_simBlock_fst baselines mo j p hp
        simp [hpj, hj]
      rw [hgen g, hgen f]
    · have hsb : simBlock baselines g j = simBlock baselines f j := by
        unfold simBlock
        rw [hfg j hj]
      rw [hsb]

/-- C8: a replicate whose perturbed file is missing or unparseable yields
the empty measurement set and contributes zero rows for that value, while
the rows of the other replicates do not depend on that file at all. -/
theorem C8_missing_perturbed (baselines : List (ℕ × List (String × List ℚ)))
    (mixedOf : ℕ → Option (List StopInfo)) (sims sim : ℕ) :
    (mixedOf sim = none →
        parseStopDelaysFile (mixedOf sim) = []
          ∧ (rowsForValue baselines mixedOf sims).filter
              (fun p => p.1 == sim) = [])
      ∧ (∀ g : ℕ → Option (List StopInfo), (∀ j, j ≠ sim → g j = mixedOf j) →
          (rowsForValue baselines g sims).filter (fun p => p.1 != sim)
            = (rowsForValue baselines mixedOf sims).filter
                (fun p => p.1 != sim)) := by
  constructor
  · intro h
    refine ⟨by rw [h]; rfl, ?_⟩
    exact filter_rows_foldr_eq_sim baselines mixedOf _ sim
      (simBlock_missing baselines mixedOf sim h)
  · intro g hg
    exact filter_rows_foldr_ne_sim baselines mixedOf g _ sim hg

theorem C8_missing_perturbed_witness :
    parseStopDelaysFile ((fun _ : ℕ => (none : Option (List StopInfo))) 1) = []
      ∧ (rowsForValue [(1, [("A", [10])])] (fun _ => none) 1).filter
          (fun p => p.1 == 1) = [] :=
  (C8_missing_perturbed [(1, [("A", [10])])] (fun _ => none) 1 1).1 rfl

end Sumo

namespace Sumo

/-! Order facts about the linear-interpolation percentile. -/

theorem getD_irrel (l : List ℚ) :
    ∀ i, i < l.length → ∀ d d', l.getD i d = l.getD i d' := by
  induction l with
  | nil => intro i hi; simp at hi
  | cons x t ih =>
    intro i hi d d'
    cases i with
    | zero => simp
    | succ j =>
      simp only [List.getD_cons_succ]
      exact ih j (by simpa using hi) d d'

theorem getD_ge_length (l : List ℚ) :
    ∀ i, l.length ≤ i → ∀ d : ℚ, l.getD i d = d := by
  induction l with
  | nil => intro i _ d; simp
  | cons x t ih =>
    intro i hi d
    cases i with
    | zero => simp at hi
    | succ j =>
      simp only [List.getD_cons_succ]
      exact ih j (by simpa using hi) d

theorem sorted_getD_le (s : List ℚ) (hs : s.Sorted (· ≤ ·)) :
    ∀ a b : ℕ, a ≤ b → b < s.length → s.getD a 0 ≤ s.getD b 0 := by
  induction s with
  | nil => intro a b _ hb; simp at hb
  | cons x t ih =>
    intro a b hab hb
    cases a with
    | zero =>
      cases b with
      | zero => simp
      | succ j =>
        have hj : j < t.length := by simpa using hb
        have hmem : t.getD j 0 ∈ t := by
          rw [List.getD_eq_getElem t 0 hj]
          exact List.getElem_mem hj
        simp only [List.getD_cons_zero, List.getD_cons_succ]
        exact (List.rel_of_sorted_cons hs) _ hmem
    | succ i =>
      cases b with
      | zero => omega
      | succ j =>
        simp only [List.getD_cons_succ]
        exact ih hs.of_cons i j (by omega) (by simpa using hb)

theorem pIdx_le (s : List ℚ) (q : ℚ) (hne : s ≠ []) (hq0 : 0 ≤ q)
    (hq1 : q ≤ 1) :
    ((pIdx s q : ℚ) ≤ q * ((s.length : ℚ) - 1))
      ∧ (q * ((s.length : ℚ) - 1) < (pIdx s q : ℚ) + 1)
      ∧ pIdx s q ≤ s.length - 1 ∧ pIdx s q < s.length := by
  have hn : 1 ≤ s.length := List.length_pos.mpr hne
  have hn1 : (1 : ℚ) ≤ (s.length : ℚ) := by exact_mod_cast hn
  have hx : (0 : ℚ) ≤ (s.length : ℚ) - 1 := by linarith
  have h0 : 0 ≤ q * ((s.length : ℚ) - 1) := mul_nonneg hq0 hx
  have h1 : q * ((s.length : ℚ) - 1) ≤ (s.length : ℚ) - 1 := by nlinarith
  have hfl : 0 ≤ ⌊q * ((s.length : ℚ) - 1)⌋ := Int.floor_nonneg.mpr h0
  have hcast : ((pIdx s q : ℕ) : ℚ) = ((⌊q * ((s.length : ℚ) - 1)⌋ : ℤ) : ℚ) := by
    unfold pIdx
    exact_mod_cast congrArg (fun z : ℤ => (z : ℚ)) (Int.toNat_of_nonneg hfl)
  have hA : (pIdx s q : ℚ) ≤ q * ((s.length : ℚ) - 1) := by
    rw [hcast]; exact Int.floor_le _
  have hB : q * ((s.length : ℚ) - 1) < (pIdx s q : ℚ) + 1 := by
    rw [hcast]
    have h := Int.lt_floor_add_one (q * ((s.length : ℚ) - 1))
    push_cast at h ⊢
    linarith
  have hC : pIdx s q ≤ s.length - 1 := by
    have hq : (pIdx s q : ℚ) ≤ ((s.length - 1 : ℕ) : ℚ) := by
      rw [Nat.cast_sub hn]
      push_cast
      linarith
    exact_mod_cast hq
  exact ⟨hA, hB, hC, by omega⟩

theorem percSorted_eq (s : List ℚ) (q : ℚ) (hne : s ≠ []) :
    percSorted s q
      = s.getD (pIdx s q) 0
        + (q * ((s.length : ℚ) - 1) - (pIdx s q : ℚ))
          * (s.getD (pIdx s q + 1) (s.getD (pIdx s q) 0)
              - s.getD (pIdx s q) 0) := by
  unfold percSorted
  rw [if_neg hne]

theorem percSorted_bounds_aux (s : List ℚ) (q : ℚ)
    (hs : s.Sorted (· ≤ ·)) (hne : s ≠ []) (hq0 : 0 ≤ q) (hq1 : q ≤ 1) :
    s.getD (pIdx s q) 0 ≤ percSorted s q
      ∧ percSorted s q ≤ s.getD (min (pIdx s q + 1) (s.length - 1)) 0 := by
  obtain ⟨hle, hlt, hle1, hlen⟩ := pIdx_le s q hne hq0 hq1
  have hf0 : 0 ≤ q * ((s.length : ℚ) - 1) - (pIdx s q : ℚ) := by linarith
  rw [percSorted_eq s q hne]
  by_cases hc : pIdx s q + 1 < s.length
  · rw [getD_irrel s (pIdx s q + 1) hc _ 0]
    have hlohi : s.getD (pIdx s q) 0 ≤ s.getD (pIdx s q + 1) 0 :=
      sorted_getD_le s hs (pIdx s q) (pIdx s q + 1) (by omega) hc
    have hf1 : q * ((s.length : ℚ) - 1) - (pIdx s q : ℚ) ≤ 1 := by linarith
    have hminEq : min (pIdx s q + 1) (s.length - 1) = pIdx s q + 1 := by omega
    rw [hminEq]
    constructor
    · nlinarith
    · nlinarith
  · have hdef : s.getD (pIdx s q + 1) (s.getD (pIdx s q) 0)
        = s.getD (pIdx s q) 0 := getD_ge_length s (pIdx s q + 1) (by omega) _
    rw [hdef]
    have heq : s.getD (pIdx s q) 0
        + (q * ((s.length : ℚ) - 1) - (pIdx s q : ℚ))
          * (s.getD (pIdx s q) 0 - s.getD (pIdx s q) 0)
        = s.getD (pIdx s q) 0 := by ring
    rw [heq]
    have hminEq : min (pIdx s q + 1) (s.length - 1) = pIdx s q := by omega
    rw [hminEq]
    exact ⟨le_refl _, le_refl _⟩

theorem percSorted_mono (s : List ℚ) (q q' : ℚ) (hs : s.Sorted (· ≤ ·))
    (hne : s ≠ []) (hq0 : 0 ≤ q) (hqq : q ≤ q') (hq1 : q' ≤ 1) :
    percSorted s q ≤ percSorted s q' := by
  have hq0' : 0 ≤ q' := le_trans hq0 hqq
  have hq1q : q ≤ 1 := le_trans hqq hq1
  obtain ⟨hle, hlt, hle1, hlen⟩ := pIdx_le s q hne hq0 hq1q
  obtain ⟨hle', hlt', hle1', hlen'⟩ := pIdx_le s q' hne hq0' hq1
  have hn : 1 ≤ s.length := List.length_pos.mpr hne
  have hn1 : (1 : ℚ) ≤ (s.length : ℚ) := by exact_mod_cast hn
  have hx : (0 : ℚ) ≤ (s.length : ℚ) - 1 := by linarith
  have hhh : q * ((s.length : ℚ) - 1) ≤ q' * ((s.length : ℚ) - 1) := by
    nlinarith
  have hii : pIdx s q ≤ pIdx s q' := by
    unfold pIdx
    exact Int.toNat_le_toNat (Int.floor_le_floor hhh)
  by_cases heq : pIdx s q = pIdx s q'
  · rw [percSorted_eq s q hne, percSorted_eq s q' hne, ← heq]
    by_cases hc : pIdx s q + 1 < s.length
    · rw [getD_irrel s (pIdx s q + 1) hc _ 0]
      have hlohi : s.getD (pIdx s q) 0 ≤ s.getD (pIdx s q + 1) 0 :=
        sorted_getD_le s hs (pIdx s q) (pIdx s q + 1) (by omega) hc
      nlinarith
    · have hdef : s.getD (pIdx s q + 1) (s.getD (pIdx s q) 0)
          = s.getD (pIdx s q) 0 := getD_ge_length s (pIdx s q + 1) (by omega) _
      rw [hdef]
      have heq2 : ∀ c : ℚ, s.getD (pIdx s q) 0
          + c * (s.getD (pIdx s q) 0 - s.getD (pIdx s q) 0)
          = s.getD (pIdx s q) 0 := by intro c; ring
      rw [heq2, heq2]
  · have hii' : pIdx s q < pIdx s q' := lt_of_le_of_ne hii heq
    have hb := percSorted_bounds_aux s q hs hne hq0 hq1q
    have hb' := percSorted_bounds_aux s q' hs hne hq0' hq1
    have h2 : s.getD (min (pIdx s q + 1) (s.length - 1)) 0
        ≤ s.getD (pIdx s q') 0 :=
      sorted_getD_le s hs _ _ (by omega) hlen'
    linarith [hb.2, hb'.1]

theorem mkSummaryRow_chain (v : ℕ) (xs : List ℚ) (hne : xs ≠ []) :
    (mkSummaryRow v xs).min_delta_s ≤ (mkSummaryRow v xs).p10_delta_s
      ∧ (mkSummaryRow v xs).p10_delta_s ≤ (mkSummaryRow v xs).median_delta_s
      ∧ (mkSummaryRow v xs).median_delta_s ≤ (mkSummaryRow v xs).p90_delta_s
      ∧ (mkSummaryRow v xs).p90_delta_s ≤ (mkSummaryRow v xs).max_delta_s := by
  have hemp : xs.isEmpty = false := by
    cases xs with
    | nil => exact absurd rfl hne
    | cons a t => rfl
  unfold mkSummaryRow
  rw [hemp]
  simp only [Bool.false_eq_true, if_false]
  have hs : (sortAsc xs).Sorted (· ≤ ·) := sortAsc_sorted xs
  have hsne : sortAsc xs ≠ [] := sortAsc_ne_nil xs hne
  have hb10 := percSorted_bounds_aux (sortAsc xs) (1 / 10) hs hsne
    (by norm_num) (by norm_num)
  have hb90 := percSorted_bounds_aux (sortAsc xs) (9 / 10) hs hsne
    (by norm_num) (by norm_num)
  obtain ⟨_, _, hle1_10, hlen10⟩ := pIdx_le (sortAsc xs) (1 / 10) hsne
    (by norm_num) (by norm_num)
  obtain ⟨_, _, hle1_90, hlen90⟩ := pIdx_le (sortAsc xs) (9 / 10) hsne
    (by norm_num) (by norm_num)
  have hlenpos : 0 < (sortAsc xs).length := List.length_pos.mpr hsne
  refine ⟨?_, ?_, ?_, ?_⟩
  · have hlow : (sortAsc xs).getD 0 0
        ≤ (sortAsc xs).getD (pIdx (sortAsc xs) (1 / 10)) 0 :=
      sorted_getD_le _ hs 0 _ (by omega) hlen10
    exact le_trans hlow hb10.1
  · exact percSorted_mono (sortAsc xs) (1 / 10) (1 / 2) hs hsne
      (by norm_num) (by norm_num) (by norm_num)
  · exact percSorted_mono (sortAsc xs) (1 / 2) (9 / 10) hs hsne
      (by norm_num) (by norm_num) (by norm_num)
  · have hhigh : (sortAsc xs).getD
        (min (pIdx (sortAsc xs) (9 / 10) + 1) ((sortAsc xs).length - 1)) 0
          ≤ (sortAsc xs).getD ((sortAsc xs).length - 1) 0 :=
      sorted_getD_le _ hs _ _ (by omega) (by omega)
    exact le_trans hb90.2 hhigh

theorem summary_chain_of_mem (L : List ℕ) (f : ℕ → List ℚ) (row : SummaryRow)
    (hm : row ∈ sortByValue (L.map (fun v => mkSummaryRow v (f v))))
    (hc : 0 < row.count) :
    row.min_delta_s ≤ row.p10_delta_s
      ∧ row.p10_delta_s ≤ row.median_delta_s
      ∧ row.median_delta_s ≤ row.p90_delta_s
      ∧ row.p90_delta_s ≤ row.max_delta_s := by
  have hmem : row ∈ L.map (fun v => mkSummaryRow v (f v)) := by
    unfold sortByValue at hm
    exact (List.perm_insertionSort _ _).mem_iff.mp hm
  rcases List.mem_map.mp hmem with ⟨v, _, heq⟩
  by_cases hne : f v = []
  · rw [← heq, hne] at hc
    simp [mkSummaryRow] at hc
  · have h := mkSummaryRow_chain v (f v) hne
    rw [heq] at h
    exact h

/-- C9: in every emitted summary row with a positive count, the percentile
statistics satisfy min ≤ p10 ≤ median ≤ p90 ≤ max, in both scripts. -/
theorem C9_percentile_order :
    (∀ (bf : ℕ → Option (List StopInfo))
        (files : ℕ → ℕ → Option (List StopInfo)) (sims : ℕ)
        (row : SummaryRow),
        row ∈ (buildExportReport bf files sims).summary → 0 < row.count →
          row.min_delta_s ≤ row.p10_delta_s
            ∧ row.p10_delta_s ≤ row.median_delta_s
            ∧ row.median_delta_s ≤ row.p90_delta_s
            ∧ row.p90_delta_s ≤ row.max_delta_s)
      ∧ (∀ (baseline : List (String × ℚ)) (names : List (ℕ × ℕ))
          (content : ℕ → ℕ → Option (List TripInfo)) (row : SummaryRow),
          row ∈ (buildGReport baseline names content).summary → 0 < row.count →
            row.min_delta_s ≤ row.p10_delta_s
              ∧ row.p10_delta_s ≤ row.median_delta_s
              ∧ row.median_delta_s ≤ row.p90_delta_s
              ∧ row.p90_delta_s ≤ row.max_delta_s) := by
  constructor
  · intro bf files sims row hm hc
    rw [buildExportReport_summary] at hm
    exact summary_chain_of_mem exportValues _ row hm hc
  · intro baseline names content row hm hc
    rw [buildGReport_summary] at hm
    exact summary_chain_of_mem (all_values names) _ row hm hc

theorem C9_percentile_order_witness :
    (mkSummaryRow 5 ((gRowsFor [("b", 1)] [(5, 1)]
          (fun _ _ => some [⟨some "b", none, none, none, some (some 2),
            none, none⟩]) 5).map VRow.delay_s)).min_delta_s
        ≤ (mkSummaryRow 5 ((gRowsFor [("b", 1)] [(5, 1)]
          (fun _ _ => some [⟨some "b", none, none, none, some (some 2),
            none, none⟩]) 5).map VRow.delay_s)).p10_delta_s
      ∧ (mkSummaryRow 5 ((gRowsFor [("b", 1)] [(5, 1)]
          (fun _ _ => some [⟨some "b", none, none, none, some (some 2),
            none, none⟩]) 5).map VRow.delay_s)).p10_delta_s
        ≤ (mkSummaryRow 5 ((gRowsFor [("b", 1)] [(5, 1)]
          (fun _ _ => some [⟨some "b", none, none, none, some (some 2),
            none, none⟩]) 5).map VRow.delay_s)).median_delta_s
      ∧ (mkSummaryRow 5 ((gRowsFor [("b", 1)] [(5, 1)]
          (fun _ _ => some [⟨some "b", none, none, none, some (some 2),
            none, none⟩]) 5).map VRow.delay_s)).median_delta_s
        ≤ (mkSummaryRow 5 ((gRowsFor [("b", 1)] [(5, 1)]
          (fun _ _ => some [⟨some "b", none, none, none, some (some 2),
            none, none⟩]) 5).map VRow.delay_s)).p90_delta_s
      ∧ (mkSummaryRow 5 ((gRowsFor [("b", 1)] [(5, 1)]
          (fun _ _ => some [⟨some "b", none, none, none, some (some 2),
            none, none⟩]) 5).map VRow.delay_s)).p90_delta_s
        ≤ (mkSummaryRow 5 ((gRowsFor [("b", 1)] [(5, 1)]
          (fun _ _ => some [⟨some "b", none, none, none, some (some 2),
            none, none⟩]) 5).map VRow.delay_s)).max_delta_s := by
  refine C9_percentile_order.2 [("b", 1)] [(5, 1)]
    (fun _ _ => some [⟨some "b", none, none, none, some (some 2),
      none, none⟩]) _ ?_ ?_
  · rw [buildGReport_summary]
    have hav : all_values [(5, 1)] = [5] := by decide
    rw [hav]
    simp only [List.map_cons, List.map_nil]
    exact mem_sortByValue_of_mem (List.mem_cons_self _ _)
  · decide

end Sumo

